import Mathlib

/-!
Verification development for the clean-google-photos-export reconciliation
pipeline (src/clean.py).

Python paths are modelled as their `parts` lists (pathlib `Path.parts`),
the filesystem as the list of existing files, and each pipeline function of
src/clean.py is translated into an explicit state-passing Lean function:

* `get_archive_dir`, `get_json_file`, `archive_file`, `update_metadata`,
  `deduplicate_files`, `update_files`, `archive_files`, `main` mirror the
  functions of the same name in src/clean.py.
* Fallible Python code (a raised exception: `relative_to` on a non-nested
  path, `rename` of a missing file, an uncaught error aborting the run) is
  modelled by `Option`, `none` meaning the Python code raises.
* The `typer.progressbar(files)` loop in `deduplicate_files` iterates a live
  Python list iterator while the body calls `files.remove(...)`; this is
  modelled faithfully by an index-based loop (`dedupLoop`) over the mutating
  list, exactly as CPython's list iterator behaves.
-/

namespace CGPE

/-- A filesystem path, modelled as its list of parts (pathlib `Path.parts`);
an absolute path has "/" as its first part. -/
abbrev Path := List String

/-- `Path.parent` of pathlib: drop the last part; the root is its own parent
(`Path("/").parent == Path("/")`, `Path("x").parent == Path(".")`, whose
parts are `()`). -/
def pathParent (p : Path) : Path := if p = ["/"] then ["/"] else p.dropLast

/-- `Path.name` of pathlib: the final part (empty for the root). -/
def pathName (p : Path) : String := if p = ["/"] then "" else (p.getLast?.getD "")

/-- `str(path)` for the paths used here: the parts joined by "/". -/
def pathToString : Path → String
  | "/" :: rest => "/" ++ String.intercalate "/" rest
  | parts => String.intercalate "/" parts

/-- Index of the last '.' in a list of characters (Python `str.rfind('.')`,
`none` for Python's `-1`). -/
def lastDotPos : List Char → Option Nat
  | [] => none
  | c :: cs =>
    match lastDotPos cs with
    | some j => some (j + 1)
    | none => if c = '.' then some 0 else none

/-- pathlib's `PurePath.suffix` rule on a file name:
`i = name.rfind('.'); return name[i:] if 0 < i < len(name) - 1 else ''`. -/
def strSuffix (name : String) : String :=
  match lastDotPos name.data with
  | some i => if 0 < i ∧ i < name.data.length - 1 then String.mk (name.data.drop i) else ""
  | none => ""

/-- `Path.suffix` of pathlib: the suffix of the final component. -/
def pathSuffix (p : Path) : String := strSuffix (pathName p)

/-- Python `str.lower()`, modelled characterwise (the extension strings the
program compares are plain ASCII). -/
def strToLower (s : String) : String := String.mk (s.data.map Char.toLower)

/-- The bulk-folder test of `deduplicate_files`
(`str(file.parent).find("Photos from") != -1`). -/
def isBulk (file : Path) : Bool :=
  decide ("Photos from".data <:+: (pathToString (pathParent file)).data)

/-- A calendar datetime at second granularity (Python `datetime`). -/
structure DateTime where
  year : Nat
  month : Nat
  day : Nat
  hour : Nat
  minute : Nat
  second : Nat
deriving DecidableEq, Repr

/-- `datetime.date()`: the day-granularity part of a datetime. -/
def dtDate (t : DateTime) : Nat × Nat × Nat := (t.year, t.month, t.day)

/-- Model of Python `datetime.timestamp()`: a fixed injective encoding of the
calendar datetime into seconds.  The claims never depend on the epoch
arithmetic, only on the value being a function of the datetime. -/
def dtTimestamp (t : DateTime) : Nat :=
  ((((t.year * 12 + t.month) * 31 + t.day) * 24 + t.hour) * 60 + t.minute) * 60 + t.second

/-- The per-file metadata state: the three embedded exif date tags
(`0th/DateTime`, `Exif/DateTimeOriginal`, `Exif/DateTimeDigitized`, `none`
when the tag is absent or empty) and the filesystem times set by
`os.utime`. -/
structure FileMeta where
  dateTime : Option DateTime
  dateTimeOriginal : Option DateTime
  dateTimeDigitized : Option DateTime
  mtime : Nat
  atime : Nat
deriving DecidableEq, Repr

/-- Modelled from the spec: the repository loads `FILES_TO_UPDATE`,
`FILES_TO_ARCHIVE`, `ARCHIVE_FOLDER_NAME` and the default target directory
from `settings.json`, which is not among the source files; the configuration
surface is therefore kept abstract, exactly as §6 of the spec lists it.
`target_dir` is the runtime entry `SETTINGS["target_dir"]` that `main`
assigns before the phases run. -/
structure Settings where
  archive_folder_name : String
  target_dir : Path
  ext_to_update : List String
  ext_to_archive : List String
deriving DecidableEq, Repr

/-- The module-level `trackers` dict of src/clean.py. -/
structure Trackers where
  deduplicated_files : Nat
  skipped_files : Nat
  updated_files : Nat
  archived_files : Nat
deriving DecidableEq, Repr

/-- The zero-initialised trackers at module load. -/
def tr0 : Trackers := ⟨0, 0, 0, 0⟩

/-- The filesystem state: the list of existing files, each file's metadata
(association list, most recent entry first) and, for sidecar JSON files, the
parsed `photoTakenTime.timestamp` content (assumed well formed; a malformed
sidecar is out of scope of the claims settled here). -/
structure World where
  fs : List Path
  meta : List (Path × FileMeta)
  jsonDate : List (Path × DateTime)
deriving DecidableEq

/-- Metadata of a file (reads fall back to an all-absent default). -/
def metaOf (w : World) (p : Path) : FileMeta := (w.meta.lookup p).getD ⟨none, none, none, 0, 0⟩

/-- Parsed `photoTakenTime` of a sidecar file (`get_photo_taken_date`). -/
def jsonDateOf (w : World) (p : Path) : DateTime := (w.jsonDate.lookup p).getD ⟨1970, 1, 1, 0, 0, 0⟩

/-- `get_archive_dir` of src/clean.py: the archive folder corresponding to a
file.  `none` models the `ValueError` that `Path.relative_to` raises when the
file's parent is not nested under the target directory. -/
def get_archive_dir (s : Settings) (file : Path) : Option Path :=
  if s.archive_folder_name ∉ file then
    if s.target_dir.isPrefixOf (pathParent file) then
      some (pathParent s.target_dir ++ [s.archive_folder_name] ++
        (pathParent file).drop s.target_dir.length)
    else none
  else some (pathParent file)

/-- `get_json_file` of src/clean.py: the sidecar candidate next to the file,
falling back to the archive-mirrored location when the candidate does not
exist.  The returned path may itself not exist (callers re-check). -/
def get_json_file (s : Settings) (w : World) (working_file : Path) : Option Path :=
  let json_file := pathParent working_file ++ [pathName working_file ++ ".json"]
  if json_file ∈ w.fs then some json_file
  else (get_archive_dir s working_file).map (fun dir => dir ++ [pathName working_file ++ ".json"])

/-- `archive_file` of src/clean.py: move the file into its archive folder
(`Path.rename`); returns `false` and leaves the filesystem alone when the
file's parent is already the archive folder.  `none` models a raised
filesystem error (archive-dir computation failure, or renaming a file that
does not exist). -/
def archive_file (s : Settings) (w : World) (file : Path) : Option (Bool × World) :=
  match get_archive_dir s file with
  | none => none
  | some output_dir =>
    if pathParent file ≠ output_dir then
      if file ∈ w.fs then
        let dst := output_dir ++ [pathName file]
        some (true, { w with fs := (w.fs.erase file).insert dst,
                             meta := (dst, metaOf w file) :: w.meta,
                             jsonDate := (dst, jsonDateOf w file) :: w.jsonDate })
      else none
    else some (false, w)

/-- `update_metadata` of src/clean.py, acting on the file's metadata state:
for `.jpg`/`.jpeg` files read the three exif tags; when all three are present
and all three equal the sidecar date at day granularity, return `False`
without touching anything (the early `return False` fires before
`os.utime`); otherwise write the sidecar datetime into all three tags (for
image files), apply `os.utime`, and return `True`. -/
def update_metadata (file_path : Path) (new_date : DateTime) (m : FileMeta) : Bool × FileMeta :=
  let written : FileMeta :=
    { m with dateTime := some new_date, dateTimeOriginal := some new_date,
             dateTimeDigitized := some new_date,
             mtime := dtTimestamp new_date, atime := dtTimestamp new_date }
  let touched : FileMeta := { m with mtime := dtTimestamp new_date, atime := dtTimestamp new_date }
  if strToLower (pathSuffix file_path) ∈ ([".jpg", ".jpeg"] : List String) then
    match m.dateTime, m.dateTimeOriginal, m.dateTimeDigitized with
    | some date_time, some date_time_original, some date_time_digitized =>
      if dtDate new_date = dtDate date_time ∧ dtDate new_date = dtDate date_time_original ∧
         dtDate new_date = dtDate date_time_digitized then
        (false, m)
      else (true, written)
    | _, _, _ => (true, written)
  else (true, touched)

/-- The state threaded through the three phases: the filesystem world, the
`trackers` counters, the working list of files (the list `deduplicate_files`
mutates and returns), and the trace of every path passed to
`archive_file` (used to state which files a phase relocates). -/
structure RunSt where
  w : World
  tr : Trackers
  files : List Path
  events : List Path
deriving DecidableEq

/-- The body of the inner `for dup in duplicates` loop of
`deduplicate_files`: archive the duplicate, archive its sidecar when one is
found, and remove the duplicate from the working list. -/
def archiveDup (s : Settings) (st : RunSt) (dup : Path) : Option RunSt :=
  match archive_file s st.w dup with
  | none => none
  | some (b, w1) =>
    let tr1 := { st.tr with deduplicated_files := st.tr.deduplicated_files + b.toNat }
    match get_json_file s w1 dup with
    | none => none
    | some dup_json =>
      if dup_json ∈ w1.fs then
        match archive_file s w1 dup_json with
        | none => none
        | some (bj, w2) =>
          some { w := w2,
                 tr := { tr1 with archived_files := tr1.archived_files + bj.toNat },
                 files := st.files.erase dup,
                 events := st.events ++ [dup, dup_json] }
      else
        some { w := w1, tr := tr1, files := st.files.erase dup,
               events := st.events ++ [dup] }

/-- One iteration of the `for file in progress` loop of `deduplicate_files`,
acting on the element at index `i` of the current (possibly already
shrunk) working list. -/
def dedupStep (s : Settings) (st : RunSt) (i : Nat) : Option RunSt :=
  match st.files.get? i with
  | none => some st
  | some file =>
    let files_with_same_name := st.files.filter (fun f => pathName f == pathName file)
    if files_with_same_name.length - 1 > 0 then
      let duplicates := files_with_same_name.filter isBulk
      if duplicates.length = files_with_same_name.length - 1 then
        duplicates.foldlM (archiveDup s) st
      else some st
    else some st

/-- The `for file in progress` loop of `deduplicate_files`: CPython's list
iterator keeps a cursor `i` into the live list, so elements that shift below
the cursor after a `files.remove(...)` are silently skipped.  The loop stops
as soon as the cursor reaches the current length.  `fuel` only bounds the
recursion; starting from `files.length` it never runs out, because the
cursor advances by one per iteration and the list never grows. -/
def dedupLoop (s : Settings) : Nat → RunSt → Nat → Option RunSt
  | 0, st, i => if i < st.files.length then none else some st
  | fuel + 1, st, i =>
    if i < st.files.length then
      match dedupStep s st i with
      | none => none
      | some st' => dedupLoop s fuel st' (i + 1)
    else some st

/-- `deduplicate_files` of src/clean.py. -/
def deduplicate_files (s : Settings) (w : World) (tr : Trackers) (files : List Path) :
    Option RunSt :=
  dedupLoop s files.length { w := w, tr := tr, files := files, events := [] } 0

/-- The body of the `for f in progress` loop of `update_files`: look up the
sidecar, and when it exists update the file's dates from it, archive the
sidecar, and count the file as updated or skipped. -/
def updateOne (s : Settings) (st : RunSt) (f : Path) : Option RunSt :=
  match get_json_file s st.w f with
  | none => none
  | some json_file =>
    if json_file ∈ st.w.fs then
      let photo_taken_date := jsonDateOf st.w json_file
      let (updated, m') := update_metadata f photo_taken_date (metaOf st.w f)
      let w1 := { st.w with meta := (f, m') :: st.w.meta }
      match archive_file s w1 json_file with
      | none => none
      | some (bj, w2) =>
        let trA := { st.tr with archived_files := st.tr.archived_files + bj.toNat }
        let tr' := if updated then { trA with updated_files := trA.updated_files + 1 }
                   else { trA with skipped_files := trA.skipped_files + 1 }
        some { st with w := w2, tr := tr', events := st.events ++ [json_file] }
    else
      some { st with tr := { st.tr with skipped_files := st.tr.skipped_files + 1 } }

/-- `update_files` of src/clean.py. -/
def update_files (s : Settings) (files : List Path) (st : RunSt) : Option RunSt :=
  files.foldlM (updateOne s) st

/-- The body of the `for f in progress` loop of `archive_files`. -/
def archiveOne (s : Settings) (st : RunSt) (f : Path) : Option RunSt :=
  match archive_file s st.w f with
  | none => none
  | some (archived, w') =>
    let tr' := if archived then { st.tr with archived_files := st.tr.archived_files + 1 }
               else { st.tr with skipped_files := st.tr.skipped_files + 1 }
    some { st with w := w', tr := tr', events := st.events ++ [f] }

/-- `archive_files` of src/clean.py. -/
def archive_files (s : Settings) (files : List Path) (st : RunSt) : Option RunSt :=
  files.foldlM (archiveOne s) st

/-- `Path(directory).rglob("*")` restricted to plain files: every file of the
world strictly below the directory. -/
def rglobFiles (d : Path) (w : World) : List Path :=
  w.fs.filter (fun f => d.isPrefixOf f && f != d)

/-- The warning printed when the target directory is missing or invalid. -/
def targetMissingMsg : String :=
  "A target folder must be defined in the JSON settings or as an argument."

/-- The warning printed when no eligible files are found. -/
def noFilesMsg : String := "No files to process"

/-- The tally block printed at the end of a completed run
(lines 302-309 of src/clean.py). -/
def summaryLines (dedup update archive : Bool) (tr : Trackers) : List String :=
  (if dedup then [toString tr.deduplicated_files ++ " deduplicated files"] else []) ++
  (if update then [toString tr.updated_files ++ " updated files"] else []) ++
  (if update || archive then [toString tr.skipped_files ++ " skipped files"] else []) ++
  (if archive || dedup || update then [toString tr.archived_files ++ " archived files"] else [])

/-- Result of the `run` command: either an early `typer.Exit` (with its exit
code and the warning printed) or a completed run with the final counters and
the printed tally. -/
inductive MainOutcome where
  | exitEarly (code : Nat) (msg : String)
  | done (tr : Trackers) (printed : List String)
deriving DecidableEq

/-- `main` of src/clean.py (the `run` command).  `directory` is the resolved
target argument (`none` when absent/empty), `dirExists` models
`Path(directory).exists()`.  `raise typer.Exit()` carries typer's default
exit code, which is 0.  The returned world is the filesystem after the run;
`none` models an uncaught exception from one of the phases. -/
def main (s0 : Settings) (directory : Option Path) (dirExists : Path → Bool) (w : World)
    (dedup update archive : Bool) : Option (MainOutcome × World) :=
  match directory with
  | none => some (.exitEarly 0 targetMissingMsg, w)
  | some d =>
    if dirExists d then
      let s : Settings := { s0 with target_dir := d }
      let files_to_process := (rglobFiles d w).filter
        (fun f => decide (strToLower (pathSuffix f) ∈ s.ext_to_update ++ s.ext_to_archive))
      if files_to_process.length = 0 then some (.exitEarly 0 noFilesMsg, w)
      else
        let files_to_dedup := files_to_process.filter
          (fun f => decide (strToLower (pathSuffix f) ∈ s.ext_to_update))
        match (if dedup then deduplicate_files s w tr0 files_to_dedup
               else some { w := w, tr := tr0, files := files_to_dedup, events := [] }) with
        | none => none
        | some st1 =>
          match (if update then update_files s st1.files st1 else some st1) with
          | none => none
          | some st2 =>
            match (if archive then
                     archive_files s ((rglobFiles d st2.w).filter
                       (fun f => decide (strToLower (pathSuffix f) ∈ s.ext_to_archive))) st2
                   else some st2) with
            | none => none
            | some st3 => some (.done st3.tr (summaryLines dedup update archive st3.tr), st3.w)
    else some (.exitEarly 0 targetMissingMsg, w)

/-- The PathResolver contract in the spec's words (§4.1): if the marker name
already appears as a path segment of the file, the destination equals the
file's current parent; otherwise, when the file is nested under the working
root, the destination is
`sibling-of-working-root/archive-folder-name/<relative path of the file's
parent under the working root>`; it fails only when the file is not nested
under the working root in that second case. -/
def get_archive_dir_spec (s : Settings) (file : Path) : Option Path :=
  if s.archive_folder_name ∈ file then some (pathParent file)
  else if s.target_dir.isPrefixOf file && file != s.target_dir then
    some (pathParent s.target_dir ++ [s.archive_folder_name] ++
      (pathParent file).drop s.target_dir.length)
  else none

end CGPE

namespace CGPE

/-- Example settings for the concrete scenarios: working root `/t`, archive
folder name `arch`. -/
def sEx : Settings :=
  { archive_folder_name := "arch", target_dir := ["/", "t"],
    ext_to_update := [".jpg", ".mp4"], ext_to_archive := [".json"] }

def pD1 : Path := ["/", "t", "Album", "d.jpg"]
def pD2 : Path := ["/", "t", "Photos from 2020", "d.jpg"]
def pC1 : Path := ["/", "t", "Album", "c.jpg"]
def pC2 : Path := ["/", "t", "Photos from 2020", "c.jpg"]
def pC3 : Path := ["/", "t", "Photos from 2021", "c.jpg"]
def pB1 : Path := ["/", "t", "Album", "b.jpg"]
def pB2 : Path := ["/", "t", "Photos from 2020", "b.jpg"]

/-- An enumeration order that triggers the iterate-while-removing skips. -/
def badOrder : List Path := [pD2, pC2, pC3, pB1, pB2, pD1, pC1]

/-- The same seven files in canonical-first order. -/
def goodOrder : List Path := [pD1, pD2, pC1, pC2, pC3, pB1, pB2]

def wEx : World :=
  { fs := [pD1, pD2, pC1, pC2, pC3, pB1, pB2], meta := [], jsonDate := [] }

/-- A video file under the working root. -/
def mp4File : Path := ["/", "t", "v.mp4"]

/-- The sidecar of `mp4File`. -/
def mp4Json : Path := ["/", "t", "v.mp4.json"]

/-- A jpeg file under the working root. -/
def jpgFile : Path := ["/", "t", "p.jpg"]

/-- A sample sidecar datetime. -/
def dEx : DateTime := ⟨2021, 6, 5, 11, 22, 33⟩

/-- A datetime on the same day as `dEx` but at a different time. -/
def tEq : DateTime := ⟨2021, 6, 5, 8, 0, 0⟩

/-- Metadata whose three tags are all present and already on `dEx`'s day,
with untouched filesystem times. -/
def mEq : FileMeta :=
  { dateTime := some tEq, dateTimeOriginal := some tEq, dateTimeDigitized := some tEq,
    mtime := 0, atime := 0 }

/-- All-absent metadata. -/
def m0 : FileMeta := ⟨none, none, none, 0, 0⟩

/-- A world holding the video file and its sidecar. -/
def wUp : World := { fs := [mp4File, mp4Json], meta := [], jsonDate := [(mp4Json, dEx)] }

/-- The phase state at the start of the update phase on `wUp`. -/
def stUp : RunSt := { w := wUp, tr := tr0, files := [mp4File], events := [] }

/-- A file that already sits inside an archive tree of `sEx`. -/
def fArch : Path := ["/", "arch", "Album", "a.jpg"]

/-- The result of archiving `mp4Json` in `wUp` (used by concrete witnesses). -/
def c4Res : Bool × World := (archive_file sEx wUp mp4Json).getD (false, wUp)

/-- The result of running the update phase on the single video file. -/
def updRes : RunSt := (update_files sEx [mp4File] stUp).getD stUp

/-- Two copies of `a.jpg`, both under bulk folders (an ambiguous group). -/
def pA1 : Path := ["/", "t", "Photos from 2020", "a.jpg"]

def pA2 : Path := ["/", "t", "Photos from 2021", "a.jpg"]

def wAm : World := { fs := [pA1, pA2], meta := [], jsonDate := [] }

/-- A world holding a single jpeg and nothing else. -/
def wOne : World := { fs := [jpgFile], meta := [], jsonDate := [] }

/-- `Path(directory).exists()` for the concrete runs: only `/t` exists. -/
def dexT : Path → Bool := fun p => p == ["/", "t"]

/-- Settings whose update and archive-only extension sets are disjoint and
whose archive-only set contains neither ".json" nor the empty suffix. -/
def sSep : Settings :=
  { archive_folder_name := "arch", target_dir := ["/", "t"],
    ext_to_update := [".jpg", ".mp4"], ext_to_archive := [".mov"] }

/-- Dedup result of the one-video scenario under `sSep`. -/
def sepDedupRes : RunSt :=
  (deduplicate_files sSep wUp tr0 [mp4File]).getD ⟨wUp, tr0, [], []⟩

/-- Update result continuing `sepDedupRes`. -/
def sepUpdRes : RunSt :=
  (update_files sSep sepDedupRes.files sepDedupRes).getD sepDedupRes

end CGPE

namespace CGPE

/-! ## Basic path lemmas -/

theorem pathParent_eq_dropLast {p : Path} (h : p ≠ ["/"]) : pathParent p = p.dropLast := by
  unfold pathParent
  rw [if_neg h]

theorem pathParent_concat {X : Path} {y : String} (h : X ≠ []) : pathParent (X ++ [y]) = X := by
  have hne : X ++ [y] ≠ ["/"] := by
    intro hq
    apply congrArg List.length at hq
    simp at hq
    exact h hq
  rw [pathParent_eq_dropLast hne, List.dropLast_concat]

theorem pathName_concat {X : Path} {y : String} (hy : y ≠ "/") : pathName (X ++ [y]) = y := by
  have hne : X ++ [y] ≠ ["/"] := by
    intro hq
    cases X with
    | nil => simp at hq; exact hy hq
    | cons a t =>
      apply congrArg List.length at hq
      simp at hq
  unfold pathName
  rw [if_neg hne, List.getLast?_concat]
  rfl

theorem append_json_ne_slash (a : String) : a ++ ".json" ≠ "/" := by
  intro h
  apply congrArg String.data at h
  rw [String.data_append] at h
  apply congrArg List.length at h
  simp at h

/-! ## Claim C2 (corrected): the all-tags-equal skip branch -/

/-- Claim C2, as stated, is false at this concrete input: a jpeg whose three
embedded tags all equal the sidecar's date at day granularity is left with
its filesystem times untouched (the early `return False` fires before
`os.utime`), while the claim says the times are still set to the sidecar's
timestamp. -/
theorem update_metadata_skip_counterexample :
    update_metadata jpgFile dEx mEq = (false, mEq) ∧
    mEq.mtime ≠ dtTimestamp dEx ∧ mEq.atime ≠ dtTimestamp dEx := by
  decide

/-- Claim C2 (amended): for every image file whose three embedded date tags
all exist and all equal the sidecar's date at day granularity,
`update_metadata` returns false and leaves the whole metadata state
unchanged — the embedded tags and also the filesystem modification and
access times, because the skip branch returns before `os.utime`. -/
theorem update_metadata_skip_branch (f : Path) (d : DateTime) (m : FileMeta)
    (t1 t2 t3 : DateTime)
    (himg : strToLower (pathSuffix f) ∈ ([".jpg", ".jpeg"] : List String))
    (h1 : m.dateTime = some t1) (h2 : m.dateTimeOriginal = some t2)
    (h3 : m.dateTimeDigitized = some t3)
    (e1 : dtDate d = dtDate t1) (e2 : dtDate d = dtDate t2) (e3 : dtDate d = dtDate t3) :
    update_metadata f d m = (false, m) := by
  unfold update_metadata
  rw [if_pos himg, h1, h2, h3]
  dsimp only
  rw [if_pos ⟨e1, e2, e3⟩]

/-- Witness for `update_metadata_skip_branch` at a concrete jpeg. -/
theorem update_metadata_skip_branch_witness :
    update_metadata jpgFile dEx mEq = (false, mEq) :=
  update_metadata_skip_branch jpgFile dEx mEq tEq tEq tEq (by decide) (by decide) (by decide)
    (by decide) (by decide) (by decide) (by decide)

/-! ## Claim C1 (corrected): non-image files -/

/-- Claim C1, as stated, is false at this concrete input: `update_metadata`
on a `.mp4` file returns true (not false), and the update phase counts the
file as updated (not skipped) when its sidecar exists. -/
theorem update_metadata_video_counterexample :
    (update_metadata mp4File dEx m0).1 = true ∧
    (updateOne sEx stUp mp4File).map (fun r => (r.tr.updated_files, r.tr.skipped_files)) =
      some (1, 0) := by
  decide

/-- Claim C1 (amended): for every media file whose extension is not a
taggable image type, `update_metadata` skips the embedded-tag steps (the
tags are left unchanged), still sets the filesystem modification and access
times from the sidecar date, and returns true — so whenever its sidecar is
found, the update phase counts the file as updated, not skipped. -/
theorem update_metadata_nonimage (f : Path) (d : DateTime) (m : FileMeta)
    (h : strToLower (pathSuffix f) ∉ ([".jpg", ".jpeg"] : List String)) :
    update_metadata f d m = (true, { m with mtime := dtTimestamp d, atime := dtTimestamp d }) ∧
    ∀ (s : Settings) (st : RunSt) (j : Path) (r : RunSt),
      get_json_file s st.w f = some j → j ∈ st.w.fs → updateOne s st f = some r →
      r.tr.updated_files = st.tr.updated_files + 1 ∧ r.tr.skipped_files = st.tr.skipped_files := by
  have hm : ∀ (d' : DateTime) (m' : FileMeta), update_metadata f d' m' =
      (true, { m' with mtime := dtTimestamp d', atime := dtTimestamp d' }) := by
    intro d' m'
    unfold update_metadata
    rw [if_neg h]
  refine ⟨hm d m, ?_⟩
  intro s st j r hj hmem hr
  unfold updateOne at hr
  rw [hj] at hr
  dsimp only at hr
  rw [if_pos hmem] at hr
  rw [hm] at hr
  dsimp only at hr
  split at hr
  · exact absurd hr (by simp)
  · next bj w2 heq =>
    simp only [Option.some.injEq] at hr
    subst hr
    simp

/-- Witness for `update_metadata_nonimage` at the concrete video file. -/
theorem update_metadata_nonimage_witness :
    update_metadata mp4File dEx m0 =
      (true, { m0 with mtime := dtTimestamp dEx, atime := dtTimestamp dEx }) ∧
    (updRes.tr.updated_files = stUp.tr.updated_files + 1 ∧
      updRes.tr.skipped_files = stUp.tr.skipped_files) := by
  have h := update_metadata_nonimage mp4File dEx m0 (by decide)
  exact ⟨h.1, h.2 sEx stUp mp4Json updRes (by decide) (by decide) (by decide)⟩

end CGPE

namespace CGPE

/-! ## Claim C6 (confirmed): the PathResolver contract -/

/-- Claim C6: `get_archive_dir` returns the file's current parent when the
archive-folder marker name appears as a path segment of the file, and
otherwise returns
`sibling-of-working-root/archive-folder-name/<relative path of the file's
parent under the working root>`, failing exactly when the file is not nested
under the working root in that second case — i.e. it coincides with the
spec-worded `get_archive_dir_spec` on every file path (the two side
conditions only exclude the empty path and the bare root, which are not
file paths). -/
theorem get_archive_dir_matches_spec (s : Settings) (file : Path)
    (hnil : file ≠ []) (hroot : file ≠ ["/"]) :
    get_archive_dir s file = get_archive_dir_spec s file := by
  unfold get_archive_dir get_archive_dir_spec
  by_cases hm : s.archive_folder_name ∈ file
  · rw [if_neg (not_not_intro hm), if_pos hm]
  · rw [if_pos hm, if_neg hm]
    have e1 : s.target_dir.isPrefixOf (pathParent file) =
        (s.target_dir.isPrefixOf file && file != s.target_dir) := by
      rw [pathParent_eq_dropLast hroot]
      rw [Bool.eq_iff_iff]
      simp only [ List.isPrefixOf_iff_prefix, Bool.and_eq_true, bne_iff_ne]
      constructor
      · intro h
        refine ⟨h.trans ( List.dropLast_prefix file), ?_⟩
        intro heq
        have hl := h.length_le
        rw [List.length_dropLast, ← heq] at hl
        have hz : file.length ≠ 0 := fun hz => hnil (List.length_eq_zero.mp hz)
        omega
      · rintro ⟨h1, hne⟩
        have hlt : s.target_dir.length < file.length := by
          have hle := h1.length_le
          rcases Nat.eq_or_lt_of_le hle with heq | hlt
          · exact absurd (h1.eq_of_length heq).symm hne
          · exact hlt
        rw [List.dropLast_eq_take]
        exact List.prefix_take_iff.mpr ⟨h1, by omega⟩
    rw [e1]

/-- Witness for `get_archive_dir_matches_spec` at a concrete file. -/
theorem get_archive_dir_matches_spec_witness :
    get_archive_dir sEx pB1 = get_archive_dir_spec sEx pB1 :=
  get_archive_dir_matches_spec sEx pB1 (by decide) (by decide)

/-! ## Claim C4 (confirmed): idempotent relocation -/

/-- Claim C4: a file already located at its computed archive destination is
left alone by `archive_file` (returns false, no filesystem mutation), and
relocating twice in sequence — the second call on the file at its
post-relocation location — equals relocating once: the second call always
returns false and leaves the world of the first call unchanged. -/
theorem archive_file_idempotent :
    (∀ (s : Settings) (w : World) (file : Path),
        get_archive_dir s file = some (pathParent file) →
        archive_file s w file = some (false, w)) ∧
    (∀ (s : Settings) (w w' : World) (file : Path) (b : Bool),
        archive_file s w file = some (b, w') →
        archive_file s w'
          (if b then (get_archive_dir s file).getD [] ++ [pathName file] else file) =
          some (false, w')) := by
  constructor
  · intro s w file hdir
    unfold archive_file
    rw [hdir]
    dsimp only
    rw [if_neg (not_not_intro rfl)]
  · intro s w w' file b h
    unfold archive_file at h
    cases hd : get_archive_dir s file with
    | none => rw [hd] at h; exact absurd h (by simp)
    | some out =>
      rw [hd] at h
      dsimp only at h
      by_cases hpar : pathParent file ≠ out
      · rw [if_pos hpar] at h
        by_cases hmem : file ∈ w.fs
        · rw [if_pos hmem] at h
          simp only [Option.some.injEq, Prod.mk.injEq] at h
          obtain ⟨hb, hw⟩ := h
          subst hw
          rw [← hb]
          simp only [if_true]
          simp only [Option.getD_some]
          -- the destination carries the marker name as a segment
          have hmarker : s.archive_folder_name ∈ out := by
            unfold get_archive_dir at hd
            by_cases hmm : s.archive_folder_name ∈ file
            · rw [if_neg (not_not_intro hmm)] at hd
              exact absurd (Option.some.inj hd) hpar
            · rw [if_pos hmm] at hd
              by_cases hpre : s.target_dir.isPrefixOf (pathParent file)
              · rw [if_pos hpre] at hd
                rw [← Option.some.inj hd]
                simp
              · rw [if_neg hpre] at hd
                exact absurd hd (by simp)
          have houtne : out ≠ [] := List.ne_nil_of_mem hmarker
          have hpc : pathParent (out ++ [pathName file]) = out := pathParent_concat houtne
          unfold archive_file
          have hd2 : get_archive_dir s (out ++ [pathName file]) = some out := by
            unfold get_archive_dir
            rw [if_neg (not_not_intro (List.mem_append_left _ hmarker))]
            rw [hpc]
          rw [hd2]
          dsimp only
          rw [if_neg (not_not_intro hpc)]
        · rw [if_neg hmem] at h; exact absurd h (by simp)
      · rw [if_neg hpar] at h
        simp only [Option.some.injEq, Prod.mk.injEq] at h
        obtain ⟨hb, hw⟩ := h
        subst hw
        rw [← hb]
        simp only [Bool.false_eq_true, if_false]
        unfold archive_file
        rw [hd]
        dsimp only
        rw [if_neg hpar]

/-- Witness for `archive_file_idempotent`: a concrete already-archived file
and a concrete move followed by its repetition. -/
theorem archive_file_idempotent_witness :
    archive_file sEx wUp fArch = some (false, wUp) ∧
    archive_file sEx c4Res.2
      (if c4Res.1 then (get_archive_dir sEx mp4Json).getD [] ++ [pathName mp4Json] else mp4Json) =
      some (false, c4Res.2) :=
  ⟨archive_file_idempotent.1 sEx wUp fArch (by decide),
   archive_file_idempotent.2 sEx wUp c4Res.2 mp4Json c4Res.1 (by decide)⟩

end CGPE

namespace CGPE

/-! ## Claims C3 and C5 (code bugs): iterate-while-removing in dedup -/

/-- Claim C3 fails on the code: in the input `badOrder` the name group of
"b.jpg" has size 2 with exactly 1 member under a bulk folder and 1 outside,
yet `deduplicate_files` neither archives nor removes the bulk member `pB2`:
the loop body removed list elements situated before the iterator's cursor,
so the iterator skipped both members of the group and the group was never
resolved.  The claim (and the code's own docstring, which promises a
deduplicated list) requires `pB2` to be archived and removed. -/
theorem dedup_misses_qualifying_group :
    (badOrder.filter (fun f => pathName f == "b.jpg")).length = 2 ∧
    ((badOrder.filter (fun f => pathName f == "b.jpg")).filter isBulk).length = 1 ∧
    (deduplicate_files sEx wEx tr0 badOrder).map
      (fun r => (decide (pB2 ∈ r.files), decide (pB2 ∈ r.events))) = some (true, false) := by
  decide

/-- Claim C5 fails on the code: `goodOrder` and `badOrder` are permutations
of the same seven files, yet dedup archives the bulk duplicate `pB2` under
the first order and leaves it untouched in the working set under the
second: the outcome of `deduplicate_files` depends on iteration order. -/
theorem dedup_order_dependent :
    goodOrder.Perm badOrder ∧
    (deduplicate_files sEx wEx tr0 goodOrder).map
      (fun r => (decide (pB2 ∈ r.files), decide (pB2 ∈ r.events))) = some (false, true) ∧
    (deduplicate_files sEx wEx tr0 badOrder).map
      (fun r => (decide (pB2 ∈ r.files), decide (pB2 ∈ r.events))) = some (true, false) := by
  decide

/-! ## Claim C10 (confirmed): update-phase counters -/

theorem updateOne_trackers (s : Settings) (st : RunSt) (f : Path) (r : RunSt)
    (h : updateOne s st f = some r) :
    ((r.tr.updated_files = st.tr.updated_files + 1 ∧
        r.tr.skipped_files = st.tr.skipped_files) ∨
      (r.tr.skipped_files = st.tr.skipped_files + 1 ∧
        r.tr.updated_files = st.tr.updated_files)) ∧
    st.tr.archived_files ≤ r.tr.archived_files ∧
    r.tr.deduplicated_files = st.tr.deduplicated_files := by
  unfold updateOne at h
  cases hj : get_json_file s st.w f with
  | none => rw [hj] at h; exact absurd h (by simp)
  | some j =>
    rw [hj] at h
    dsimp only at h
    by_cases hmem : j ∈ st.w.fs
    · rw [if_pos hmem] at h
      cases hum : update_metadata f (jsonDateOf st.w j) (metaOf st.w f) with
      | mk updated m' =>
        rw [hum] at h
        dsimp only at h
        split at h
        · exact absurd h (by simp)
        · next bj w2 heq =>
          simp only [Option.some.injEq] at h
          subst h
          cases updated with
          | true => exact ⟨Or.inl ⟨by simp, by simp⟩, by simp, by simp⟩
          | false => exact ⟨Or.inr ⟨by simp, by simp⟩, by simp, by simp⟩
    · rw [if_neg hmem] at h
      simp only [Option.some.injEq] at h
      subst h
      exact ⟨Or.inr ⟨rfl, rfl⟩, Nat.le_refl _, rfl⟩

/-- Claim C10: every file iterated by `update_files` bumps exactly one of
the updated/skipped counters by exactly 1, and no tracker counter ever
decreases across the phase, so updated + skipped grows by exactly the
number of files iterated. -/
theorem update_files_counter_invariant :
    (∀ (s : Settings) (files : List Path) (st r : RunSt),
        update_files s files st = some r →
        r.tr.updated_files + r.tr.skipped_files =
          st.tr.updated_files + st.tr.skipped_files + files.length ∧
        st.tr.updated_files ≤ r.tr.updated_files ∧
        st.tr.skipped_files ≤ r.tr.skipped_files ∧
        st.tr.deduplicated_files ≤ r.tr.deduplicated_files ∧
        st.tr.archived_files ≤ r.tr.archived_files) ∧
    (∀ (s : Settings) (st : RunSt) (f : Path) (r : RunSt),
        updateOne s st f = some r →
        (r.tr.updated_files = st.tr.updated_files + 1 ∧
          r.tr.skipped_files = st.tr.skipped_files) ∨
        (r.tr.skipped_files = st.tr.skipped_files + 1 ∧
          r.tr.updated_files = st.tr.updated_files)) := by
  constructor
  · intro s files st r h
    induction files generalizing st r with
    | nil =>
      simp only [update_files, List.foldlM_nil, Option.pure_def, Option.some.injEq] at h
      subst h
      simp
    | cons f t ih =>
      simp only [update_files, List.foldlM_cons] at h
      cases hu : updateOne s st f with
      | none => rw [hu] at h; exact absurd h (by simp)
      | some st1 =>
        rw [hu] at h
        have h' : update_files s t st1 = some r := h
        have rest := ih st1 r h'
        have step := updateOne_trackers s st f st1 hu
        obtain ⟨hstep1, hstep2, hstep3⟩ := step
        obtain ⟨e, m1, m2, m3, m4⟩ := rest
        simp only [List.length_cons]
        rcases hstep1 with ⟨a1, a2⟩ | ⟨a1, a2⟩ <;>
          exact ⟨by omega, by omega, by omega, by omega, by omega⟩
  · intro s st f r h
    exact (updateOne_trackers s st f r h).1

/-- Witness for `update_files_counter_invariant` on a concrete
one-file update phase. -/
theorem update_files_counter_invariant_witness :
    update_files sEx [mp4File] stUp = some updRes ∧
    updRes.tr.updated_files + updRes.tr.skipped_files =
      stUp.tr.updated_files + stUp.tr.skipped_files + [mp4File].length :=
  ⟨by decide, (update_files_counter_invariant.1 sEx [mp4File] stUp updRes (by decide)).1⟩

end CGPE

namespace CGPE

/-! ## Loop invariants for the dedup phase -/

theorem foldlM_option_inv {α : Type} {β : Type} (g : β → α → Option β) (P : β → Prop) :
    ∀ (l : List α), (∀ st x r, x ∈ l → P st → g st x = some r → P r) →
      ∀ st res, P st → l.foldlM g st = some res → P res := by
  intro l
  induction l with
  | nil =>
    intro _ st res hP h
    simp only [List.foldlM_nil, Option.pure_def, Option.some.injEq] at h
    subst h
    exact hP
  | cons x t ih =>
    intro hstep st res hP h
    simp only [List.foldlM_cons] at h
    cases hg : g st x with
    | none => rw [hg] at h; exact absurd h (by simp)
    | some st1 =>
      rw [hg] at h
      have h' : t.foldlM g st1 = some res := h
      exact ih (fun st2 y r hy => hstep st2 y r (List.mem_cons_of_mem _ hy)) st1 res
        (hstep st x st1 (List.mem_cons_self _ _) hP hg) h'

theorem dedupLoop_inv (s : Settings) (P : RunSt → Prop)
    (hstep : ∀ st i st', P st → dedupStep s st i = some st' → P st') :
    ∀ (fuel : Nat) (st : RunSt) (i : Nat) (res : RunSt),
      P st → dedupLoop s fuel st i = some res → P res := by
  intro fuel
  induction fuel with
  | zero =>
    intro st i res hP h
    unfold dedupLoop at h
    by_cases hi : i < st.files.length
    · rw [if_pos hi] at h; exact absurd h (by simp)
    · rw [if_neg hi] at h
      simp only [Option.some.injEq] at h
      subst h
      exact hP
  | succ fuel ih =>
    intro st i res hP h
    unfold dedupLoop at h
    by_cases hi : i < st.files.length
    · rw [if_pos hi] at h
      cases hd : dedupStep s st i with
      | none => rw [hd] at h; exact absurd h (by simp)
      | some st' =>
        rw [hd] at h
        exact ih st' (i + 1) res (hstep st i st' hP hd) h
    · rw [if_neg hi] at h
      simp only [Option.some.injEq] at h
      subst h
      exact hP

theorem filter_erase_of_not {α : Type} [BEq α] [LawfulBEq α] (p : α → Bool) (x : α)
    (l : List α) (hx : p x = false) : (l.erase x).filter p = l.filter p := by
  induction l with
  | nil => simp
  | cons a t ih =>
    rw [List.erase_cons]
    by_cases hax : (a == x) = true
    · rw [if_pos hax]
      have hae : a = x := eq_of_beq hax
      rw [List.filter_cons_of_neg (by simp [hae, hx])]
    · rw [if_neg hax]
      by_cases hpa : p a = true
      · rw [List.filter_cons_of_pos hpa, List.filter_cons_of_pos hpa, ih]
      · rw [List.filter_cons_of_neg (by simp [hpa]), List.filter_cons_of_neg (by simp [hpa])]
        exact ih

theorem get_json_file_name (s : Settings) (w : World) (f j : Path)
    (h : get_json_file s w f = some j) : pathName j = pathName f ++ ".json" := by
  unfold get_json_file at h
  dsimp only at h
  by_cases hc : (pathParent f ++ [pathName f ++ ".json"]) ∈ w.fs
  · rw [if_pos hc] at h
    simp only [Option.some.injEq] at h
    subst h
    exact pathName_concat (append_json_ne_slash _)
  · rw [if_neg hc] at h
    cases hd : get_archive_dir s f with
    | none => rw [hd] at h; exact absurd h (by simp)
    | some dir =>
      rw [hd] at h
      simp only [Option.map_some', Option.some.injEq] at h
      subst h
      exact pathName_concat (append_json_ne_slash _)

theorem archiveDup_spec (s : Settings) (st : RunSt) (d : Path) (st' : RunSt)
    (h : archiveDup s st d = some st') :
    st'.files = st.files.erase d ∧
    (st'.events = st.events ++ [d] ∨
      ∃ j, pathName j = pathName d ++ ".json" ∧ st'.events = st.events ++ [d, j]) := by
  unfold archiveDup at h
  cases ha : archive_file s st.w d with
  | none => rw [ha] at h; exact absurd h (by simp)
  | some p =>
    obtain ⟨b, w1⟩ := p
    rw [ha] at h
    dsimp only at h
    cases hj : get_json_file s w1 d with
    | none => rw [hj] at h; exact absurd h (by simp)
    | some dj =>
      rw [hj] at h
      dsimp only at h
      by_cases hmem : dj ∈ w1.fs
      · rw [if_pos hmem] at h
        cases ha2 : archive_file s w1 dj with
        | none => rw [ha2] at h; exact absurd h (by simp)
        | some q =>
          obtain ⟨bj, w2⟩ := q
          rw [ha2] at h
          simp only [Option.some.injEq] at h
          subst h
          exact ⟨rfl, Or.inr ⟨dj, get_json_file_name s w1 d dj hj, rfl⟩⟩
      · rw [if_neg hmem] at h
        simp only [Option.some.injEq] at h
        subst h
        exact ⟨rfl, Or.inl rfl⟩

/-! ## Claim C7 (confirmed): ambiguous groups stay untouched -/

/-- Claim C7: a name group in which 0 or at least 2 members lie outside
bulk-marked folders is never resolved: no member of the group is archived or
removed, the group's slice of the working set is returned unchanged.  (The
side conditions record that `n` names a real media group: some input file
bears the name and no input media file's name ends in ".json".) -/
theorem dedup_ambiguous_group_untouched
    (s : Settings) (w : World) (tr : Trackers) (files : List Path) (n : String)
    (hmem : ∃ f ∈ files, pathName f = n)
    (hnj : ∀ f ∈ files, ¬ (".json".data <:+ (pathName f).data))
    (hcond : (files.filter (fun f => pathName f == n)).length -
        ((files.filter (fun f => pathName f == n)).filter isBulk).length = 0 ∨
      2 ≤ (files.filter (fun f => pathName f == n)).length -
        ((files.filter (fun f => pathName f == n)).filter isBulk).length) :
    ∀ res, deduplicate_files s w tr files = some res →
      res.files.filter (fun f => pathName f == n) =
        files.filter (fun f => pathName f == n) ∧
      ∀ p ∈ files, pathName p = n → p ∉ res.events := by
  intro res hres
  have hstep : ∀ st i st',
      (st.files.filter (fun f => pathName f == n) = files.filter (fun f => pathName f == n) ∧
        ∀ p ∈ st.events, pathName p ≠ n) →
      dedupStep s st i = some st' →
      (st'.files.filter (fun f => pathName f == n) = files.filter (fun f => pathName f == n) ∧
        ∀ p ∈ st'.events, pathName p ≠ n) := by
    intro st i st' hP hs
    unfold dedupStep at hs
    cases hg : st.files.get? i with
    | none => rw [hg] at hs; simp only [Option.some.injEq] at hs; subst hs; exact hP
    | some file =>
      rw [hg] at hs
      dsimp only at hs
      by_cases htot : (st.files.filter (fun f => pathName f == pathName file)).length - 1 > 0
      · rw [if_pos htot] at hs
        by_cases hdup :
            ((st.files.filter (fun f => pathName f == pathName file)).filter isBulk).length =
            (st.files.filter (fun f => pathName f == pathName file)).length - 1
        · rw [if_pos hdup] at hs
          have hmn : pathName file ≠ n := by
            intro heq
            rw [heq] at htot hdup
            rw [hP.1] at htot hdup
            have hle : ((files.filter (fun f => pathName f == n)).filter isBulk).length ≤
                (files.filter (fun f => pathName f == n)).length :=
              List.length_filter_le _ _
            omega
          refine foldlM_option_inv (archiveDup s)
            (fun st2 => st2.files.filter (fun f => pathName f == n) =
                files.filter (fun f => pathName f == n) ∧
              ∀ p ∈ st2.events, pathName p ≠ n)
            ((st.files.filter (fun f => pathName f == pathName file)).filter isBulk)
            ?_ st st' hP hs
          intro st2 x r hx hP2 hr
          have hxname : pathName x = pathName file :=
            eq_of_beq (List.mem_filter.mp (List.mem_filter.mp hx).1).2
          obtain ⟨hfiles, hevents⟩ := archiveDup_spec s st2 x r hr
          have hpx : (pathName x == n) = false :=
            beq_eq_false_iff_ne.mpr (by rw [hxname]; exact hmn)
          constructor
          · rw [hfiles,
              filter_erase_of_not (fun f => pathName f == n) x st2.files hpx]
            exact hP2.1
          · intro p hp
            rcases hevents with he | ⟨jj, hjname, he⟩
            · rw [he] at hp
              rcases List.mem_append.mp hp with h1 | h2
              · exact hP2.2 p h1
              · have hpx : p = x := by simpa using h2
                subst hpx
                rw [hxname]
                exact hmn
            · rw [he] at hp
              rcases List.mem_append.mp hp with h1 | h2
              · exact hP2.2 p h1
              · rcases List.mem_cons.mp h2 with h3 | h4
                · subst h3
                  rw [hxname]
                  exact hmn
                · have hpj : p = jj := by simpa using h4
                  subst hpj
                  intro heqn
                  obtain ⟨f0, hf0mem, hf0n⟩ := hmem
                  apply hnj f0 hf0mem
                  rw [hf0n, ← heqn, hjname, String.data_append]
                  exact List.suffix_append _ _
        · rw [if_neg hdup] at hs
          simp only [Option.some.injEq] at hs
          subst hs
          exact hP
      · rw [if_neg htot] at hs
        simp only [Option.some.injEq] at hs
        subst hs
        exact hP
  have hfin := dedupLoop_inv s _ hstep files.length
    { w := w, tr := tr, files := files, events := [] } 0 res ⟨rfl, by simp⟩ hres
  exact ⟨hfin.1, fun p _ hpn hin => hfin.2 p hin hpn⟩

/-- Witness for `dedup_ambiguous_group_untouched`: a concrete two-member
group entirely under bulk folders is returned untouched. -/
theorem dedup_ambiguous_group_untouched_witness :
    deduplicate_files sEx wAm tr0 [pA1, pA2] = some ⟨wAm, tr0, [pA1, pA2], []⟩ ∧
    (⟨wAm, tr0, [pA1, pA2], []⟩ : RunSt).files.filter (fun f => pathName f == "a.jpg") =
      [pA1, pA2].filter (fun f => pathName f == "a.jpg") := by
  refine ⟨by decide, ?_⟩
  exact (dedup_ambiguous_group_untouched sEx wAm tr0 [pA1, pA2] "a.jpg"
    ⟨pA1, List.mem_cons_self _ _, by decide⟩ (by decide) (Or.inl (by decide))
    ⟨wAm, tr0, [pA1, pA2], []⟩ (by decide)).1

end CGPE

namespace CGPE

/-! ## Suffix and event bookkeeping lemmas -/

theorem lastDotPos_append_json (l : List Char) :
    lastDotPos (l ++ ('.' :: 'j' :: 's' :: 'o' :: 'n' :: [])) = some l.length := by
  induction l with
  | nil => decide
  | cons c t ih =>
    rw [List.cons_append]
    unfold lastDotPos
    rw [ih]
    rfl

theorem strSuffix_append_json (a : String) :
    strSuffix (a ++ ".json") = if a = "" then "" else ".json" := by
  unfold strSuffix
  have hd : (a ++ ".json").data = a.data ++ ('.' :: 'j' :: 's' :: 'o' :: 'n' :: []) := by
    rw [String.data_append]
  rw [hd, lastDotPos_append_json]
  dsimp only
  by_cases hz : a = ""
  · subst hz
    decide
  · rw [if_neg hz]
    have hlen : 0 < a.data.length := by
      rcases Nat.eq_zero_or_pos a.data.length with h0 | hpos
      · exact absurd (String.ext (List.length_eq_zero.mp h0)) hz
      · exact hpos
    rw [if_pos ⟨hlen, by
      rw [List.length_append]
      show a.data.length < a.data.length + 5 - 1
      omega⟩]
    rw [List.drop_left]

theorem updateOne_events (s : Settings) (st : RunSt) (f : Path) (r : RunSt)
    (h : updateOne s st f = some r) :
    r.events = st.events ∨
      ∃ j, pathName j = pathName f ++ ".json" ∧ r.events = st.events ++ [j] := by
  unfold updateOne at h
  cases hj : get_json_file s st.w f with
  | none => rw [hj] at h; exact absurd h (by simp)
  | some j =>
    rw [hj] at h
    dsimp only at h
    by_cases hmem : j ∈ st.w.fs
    · rw [if_pos hmem] at h
      cases hum : update_metadata f (jsonDateOf st.w j) (metaOf st.w f) with
      | mk updated m' =>
        rw [hum] at h
        dsimp only at h
        split at h
        · exact absurd h (by simp)
        · next bj w2 heq =>
          simp only [Option.some.injEq] at h
          subst h
          exact Or.inr ⟨j, get_json_file_name s st.w f j hj, rfl⟩
    · rw [if_neg hmem] at h
      simp only [Option.some.injEq] at h
      subst h
      exact Or.inl rfl

theorem archiveOne_events (s : Settings) (st : RunSt) (f : Path) (r : RunSt)
    (h : archiveOne s st f = some r) : r.events = st.events ++ [f] := by
  unfold archiveOne at h
  cases ha : archive_file s st.w f with
  | none => rw [ha] at h; exact absurd h (by simp)
  | some p =>
    obtain ⟨b, w'⟩ := p
    rw [ha] at h
    simp only [Option.some.injEq] at h
    subst h
    rfl

/-! ## Claim C9 (confirmed, spec-modelled settings): extension separation -/

/-- Claim C9: under the spec's reading of the configuration (the update and
archive-only extension sets are disjoint, and neither ".json" nor the empty
suffix is archive-only), only files whose lowered extension is in the update
set appear in duplicate groups or in the update phase's input; no file
relocated by the dedup or update phases has an archive-only extension (those
phases touch only update-extension media and ".json" sidecars); and the
archive phase relocates only archive-only-extension files. -/
theorem pipeline_extension_separation
    (s : Settings) (w : World) (tr : Trackers) (files : List Path)
    (hdisj : ∀ e ∈ s.ext_to_update, e ∉ s.ext_to_archive)
    (hjson : ".json" ∉ s.ext_to_archive)
    (hnil : "" ∉ s.ext_to_archive)
    (hfiles : ∀ f ∈ files, strToLower (pathSuffix f) ∈ s.ext_to_update) :
    (∀ (n : String) (f : Path), f ∈ files.filter (fun g => pathName g == n) →
      strToLower (pathSuffix f) ∈ s.ext_to_update) ∧
    (∀ st1, deduplicate_files s w tr files = some st1 →
      (∀ f ∈ st1.files, strToLower (pathSuffix f) ∈ s.ext_to_update) ∧
      (∀ p ∈ st1.events, strToLower (pathSuffix p) ∉ s.ext_to_archive) ∧
      (∀ st2, update_files s st1.files st1 = some st2 →
        ∀ p ∈ st2.events, strToLower (pathSuffix p) ∉ s.ext_to_archive)) ∧
    (∀ (xs : List Path) (st st3 : RunSt),
      archive_files s
        (xs.filter (fun f => decide (strToLower (pathSuffix f) ∈ s.ext_to_archive))) st =
        some st3 →
      ∀ p ∈ st3.events, p ∈ st.events ∨ strToLower (pathSuffix p) ∈ s.ext_to_archive) := by
  have lj : strToLower ".json" = ".json" := by decide
  have ln : strToLower "" = "" := rfl
  have jsonSuffix : ∀ (x p : Path), pathName p = pathName x ++ ".json" →
      strToLower (pathSuffix p) ∉ s.ext_to_archive := by
    intro x p hname hc
    have hsuff : pathSuffix p = "" ∨ pathSuffix p = ".json" := by
      unfold pathSuffix
      rw [hname, strSuffix_append_json]
      by_cases hz : pathName x = ""
      · rw [if_pos hz]; exact Or.inl rfl
      · rw [if_neg hz]; exact Or.inr rfl
    rcases hsuff with hh | hh
    · rw [hh, ln] at hc; exact hnil hc
    · rw [hh, lj] at hc; exact hjson hc
  refine ⟨?_, ?_, ?_⟩
  · intro n f hf
    exact hfiles f (List.mem_filter.mp hf).1
  · intro st1 h1
    have hstep : ∀ st i st',
        ((∀ f ∈ st.files, strToLower (pathSuffix f) ∈ s.ext_to_update) ∧
          (∀ p ∈ st.events, strToLower (pathSuffix p) ∉ s.ext_to_archive)) →
        dedupStep s st i = some st' →
        ((∀ f ∈ st'.files, strToLower (pathSuffix f) ∈ s.ext_to_update) ∧
          (∀ p ∈ st'.events, strToLower (pathSuffix p) ∉ s.ext_to_archive)) := by
      intro st i st' hQ hs
      unfold dedupStep at hs
      cases hg : st.files.get? i with
      | none => rw [hg] at hs; simp only [Option.some.injEq] at hs; subst hs; exact hQ
      | some file =>
        rw [hg] at hs
        dsimp only at hs
        by_cases htot : (st.files.filter (fun f => pathName f == pathName file)).length - 1 > 0
        · rw [if_pos htot] at hs
          by_cases hdup :
              ((st.files.filter (fun f => pathName f == pathName file)).filter isBulk).length =
              (st.files.filter (fun f => pathName f == pathName file)).length - 1
          · rw [if_pos hdup] at hs
            refine foldlM_option_inv (archiveDup s)
              (fun st2 => (∀ f ∈ st2.files, strToLower (pathSuffix f) ∈ s.ext_to_update) ∧
                (∀ p ∈ st2.events, strToLower (pathSuffix p) ∉ s.ext_to_archive))
              ((st.files.filter (fun f => pathName f == pathName file)).filter isBulk)
              ?_ st st' hQ hs
            intro st2 x r hx hQ2 hr
            have hxmem : x ∈ st.files := (List.mem_filter.mp (List.mem_filter.mp hx).1).1
            have hxsuff : strToLower (pathSuffix x) ∈ s.ext_to_update := hQ.1 x hxmem
            obtain ⟨hfiles', hevents⟩ := archiveDup_spec s st2 x r hr
            constructor
            · intro f hf
              rw [hfiles'] at hf
              exact hQ2.1 f (List.mem_of_mem_erase hf)
            · intro p hp
              rcases hevents with he | ⟨jj, hjname, he⟩
              · rw [he] at hp
                rcases List.mem_append.mp hp with hm1 | hm2
                · exact hQ2.2 p hm1
                · have hpx : p = x := by simpa using hm2
                  subst hpx
                  exact hdisj _ hxsuff
              · rw [he] at hp
                rcases List.mem_append.mp hp with hm1 | hm2
                · exact hQ2.2 p hm1
                · rcases List.mem_cons.mp hm2 with hm3 | hm4
                  · subst hm3
                    exact hdisj _ hxsuff
                  · have hpj : p = jj := by simpa using hm4
                    subst hpj
                    exact jsonSuffix x p hjname
          · rw [if_neg hdup] at hs
            simp only [Option.some.injEq] at hs
            subst hs
            exact hQ
        · rw [if_neg htot] at hs
          simp only [Option.some.injEq] at hs
          subst hs
          exact hQ
    have key := dedupLoop_inv s
      (fun st => (∀ f ∈ st.files, strToLower (pathSuffix f) ∈ s.ext_to_update) ∧
        (∀ p ∈ st.events, strToLower (pathSuffix p) ∉ s.ext_to_archive))
      hstep files.length { w := w, tr := tr, files := files, events := [] } 0 st1
      ⟨hfiles, by simp⟩ h1
    refine ⟨key.1, key.2, ?_⟩
    intro st2 h2
    refine foldlM_option_inv (updateOne s)
      (fun st => ∀ p ∈ st.events, strToLower (pathSuffix p) ∉ s.ext_to_archive)
      st1.files ?_ st1 st2 key.2 h2
    intro stx f r hf hR hr
    rcases updateOne_events s stx f r hr with he | ⟨jj, hjname, he⟩
    · intro p hp
      rw [he] at hp
      exact hR p hp
    · intro p hp
      rw [he] at hp
      rcases List.mem_append.mp hp with hm1 | hm2
      · exact hR p hm1
      · have hpj : p = jj := by simpa using hm2
        subst hpj
        exact jsonSuffix f p hjname
  · intro xs st st3 h3
    refine foldlM_option_inv (archiveOne s)
      (fun stx => ∀ p ∈ stx.events, p ∈ st.events ∨ strToLower (pathSuffix p) ∈ s.ext_to_archive)
      (xs.filter (fun f => decide (strToLower (pathSuffix f) ∈ s.ext_to_archive)))
      ?_ st st3 (fun p hp => Or.inl hp) h3
    intro stx f r hf hS hr
    have he := archiveOne_events s stx f r hr
    intro p hp
    rw [he] at hp
    rcases List.mem_append.mp hp with hm1 | hm2
    · exact hS p hm1
    · have hpf : p = f := by simpa using hm2
      subst hpf
      exact Or.inr (of_decide_eq_true (List.mem_filter.mp hf).2)

/-- Witness for `pipeline_extension_separation` on the concrete one-video
pipeline: the dedup and update phases only ever relocate the ".json"
sidecar, never an archive-only file. -/
theorem pipeline_extension_separation_witness :
    deduplicate_files sSep wUp tr0 [mp4File] = some sepDedupRes ∧
    update_files sSep sepDedupRes.files sepDedupRes = some sepUpdRes ∧
    ∀ p ∈ sepUpdRes.events, strToLower (pathSuffix p) ∉ sSep.ext_to_archive := by
  refine ⟨by decide, by decide, ?_⟩
  exact ((pipeline_extension_separation sSep wUp tr0 [mp4File] (by decide) (by decide)
    (by decide) (by decide)).2.1 sepDedupRes (by decide)).2.2 sepUpdRes (by decide)

end CGPE

namespace CGPE

/-! ## Claim C8 (corrected): early aborts of the run command -/

/-- Claim C8, as stated, is false on the code: the early abort raises
`typer.Exit()` whose default exit code is 0, so the outcome of aborting on a
missing target directory is exit code 0, not a non-zero outcome. -/
theorem main_exit_code_zero :
    main sEx none dexT wEx true true true = some (.exitEarly 0 targetMissingMsg, wEx) := rfl

/-- Claim C8 (amended): the run command aborts early — but with exit code 0,
the `typer.Exit()` default, not a non-zero outcome — when the target
directory is missing or invalid and when zero eligible files are found,
performing no dedup/update/archive work in either case (the filesystem is
returned unchanged); and a run that reaches completion prints the per-phase
summary of counts. -/
theorem main_early_exit_behaviour :
    (∀ (s0 : Settings) (dex : Path → Bool) (w : World) (d1 d2 d3 : Bool),
        main s0 none dex w d1 d2 d3 = some (.exitEarly 0 targetMissingMsg, w)) ∧
    (∀ (s0 : Settings) (d : Path) (dex : Path → Bool) (w : World) (d1 d2 d3 : Bool),
        dex d = false →
        main s0 (some d) dex w d1 d2 d3 = some (.exitEarly 0 targetMissingMsg, w)) ∧
    (∀ (s0 : Settings) (d : Path) (dex : Path → Bool) (w : World) (d1 d2 d3 : Bool),
        dex d = true →
        ((rglobFiles d w).filter (fun f =>
          decide (strToLower (pathSuffix f) ∈ s0.ext_to_update ++ s0.ext_to_archive))).length
          = 0 →
        main s0 (some d) dex w d1 d2 d3 = some (.exitEarly 0 noFilesMsg, w)) ∧
    (∀ (s0 : Settings) (dir : Option Path) (dex : Path → Bool) (w w' : World)
        (d1 d2 d3 : Bool) (tr : Trackers) (printed : List String),
        main s0 dir dex w d1 d2 d3 = some (.done tr printed, w') →
        printed = summaryLines d1 d2 d3 tr) := by
  refine ⟨?_, ?_, ?_, ?_⟩
  · intro s0 dex w d1 d2 d3
    rfl
  · intro s0 d dex w d1 d2 d3 h
    unfold main
    dsimp only
    have hng : ¬ (dex d = true) := by rw [h]; exact Bool.false_ne_true
    rw [if_neg hng]
  · intro s0 d dex w d1 d2 d3 hdex hlen
    unfold main
    dsimp only
    rw [if_pos hdex]
    rw [if_pos hlen]
  · intro s0 dir dex w w' d1 d2 d3 tr printed h
    unfold main at h
    cases dir with
    | none => simp at h
    | some d =>
      dsimp only at h
      by_cases hdex : dex d = true
      · rw [if_pos hdex] at h
        by_cases hlen : ((rglobFiles d w).filter (fun f =>
            decide (strToLower (pathSuffix f) ∈ s0.ext_to_update ++ s0.ext_to_archive))).length
            = 0
        · rw [if_pos hlen] at h
          simp at h
        · rw [if_neg hlen] at h
          split at h
          · exact absurd h (by simp)
          · split at h
            · exact absurd h (by simp)
            · split at h
              · exact absurd h (by simp)
              · simp only [Option.some.injEq, Prod.mk.injEq, MainOutcome.done.injEq] at h
                obtain ⟨⟨htr, hpr⟩, hw⟩ := h
                rw [← hpr, htr]
      · rw [if_neg hdex] at h
        simp at h

/-- Witness for `main_early_exit_behaviour`: both abort shapes and a
completed (all-phases-disabled) run at concrete inputs. -/
theorem main_early_exit_behaviour_witness :
    main sEx none dexT wEx true true true = some (.exitEarly 0 targetMissingMsg, wEx) ∧
    main sEx (some ["/", "bad"]) dexT wEx true true true =
      some (.exitEarly 0 targetMissingMsg, wEx) ∧
    main sEx (some ["/", "t"]) dexT ⟨[], [], []⟩ true true true =
      some (.exitEarly 0 noFilesMsg, ⟨[], [], []⟩) ∧
    ([] : List String) = summaryLines false false false tr0 :=
  ⟨main_early_exit_behaviour.1 sEx dexT wEx true true true,
   main_early_exit_behaviour.2.1 sEx ["/", "bad"] dexT wEx true true true (by decide),
   main_early_exit_behaviour.2.2.1 sEx ["/", "t"] dexT ⟨[], [], []⟩ true true true
     (by decide) (by decide),
   main_early_exit_behaviour.2.2.2 sEx (some ["/", "t"]) dexT wOne wOne false false false
     tr0 [] (by decide)⟩

end CGPE
